import Mathlib

/-!
Verification of the quint language frontend and evaluation core against its
natural-language specification.  The definitions below are a shallow embedding
of the TypeScript sources:

* `src/quint/src/runtime/impl/compilerImpl.ts` — the compiler/evaluator of the
  computable graph and the randomized simulator (`CompilerVisitor`);
* `src/tntc/src/nameResolver.ts` — the name resolver.

Runtime values are embedded as an inductive `Value`; the mutable register bank
of the visitor is embedded as an explicit `State` record that every computable
threads through; a computable (`Computable` in `runtime.ts`) is a function
`State → Option Value × State`, where result `none` is the "no value" outcome
of a failed evaluation and the runtime-error log lives inside the state.
JavaScript's ambient `Math.random()` is modelled as an oracle stream of
naturals stored in the state and consumed by the randomized operators.
-/

namespace Quint

/-- Runtime values (`RuntimeValue` in `runtimeValue.ts`, which is not under
`src/`).  Modelled from the spec: values are booleans, arbitrary-precision
integers, strings, lists (ordered sequences) and maps (ordered mappings from
value to value); a map is embedded as an association list in insertion order,
keys already in normal form.  Only the shapes the claims need are included. -/
inductive Value where
  | vBool : Bool → Value
  | vInt : Int → Value
  | vStr : String → Value
  | vList : List Value → Value
  | vMap : List (Value × Value) → Value

mutual

/-- Structural equality of runtime values (`equals` of the value domain):
two values are equal iff they have the same constructor and their components
are pairwise equal. -/
def Value.beq : Value → Value → Bool
  | .vBool a, .vBool b => a == b
  | .vInt a, .vInt b => a == b
  | .vStr a, .vStr b => a == b
  | .vList a, .vList b => Value.beqList a b
  | .vMap a, .vMap b => Value.beqPairs a b
  | _, _ => false

/-- Pointwise structural equality of value sequences. -/
def Value.beqList : List Value → List Value → Bool
  | [], [] => true
  | a :: as, b :: bs => Value.beq a b && Value.beqList as bs
  | _, _ => false

/-- Pointwise structural equality of key/value sequences. -/
def Value.beqPairs : List (Value × Value) → List (Value × Value) → Bool
  | [], [] => true
  | (k1, v1) :: as, (k2, v2) :: bs =>
      Value.beq k1 k2 && Value.beq v1 v2 && Value.beqPairs as bs
  | _, _ => false

end

mutual

theorem Value.eq_of_beq : ∀ a b : Value, Value.beq a b = true → a = b
  | .vBool _, .vBool _, h => by simp only [Value.beq, beq_iff_eq] at h; rw [h]
  | .vInt _, .vInt _, h => by simp only [Value.beq, beq_iff_eq] at h; rw [h]
  | .vStr _, .vStr _, h => by simp only [Value.beq, beq_iff_eq] at h; rw [h]
  | .vList a, .vList b, h => by
      rw [Value.eqList_of_beqList a b (by simpa [Value.beq] using h)]
  | .vMap a, .vMap b, h => by
      rw [Value.eqPairs_of_beqPairs a b (by simpa [Value.beq] using h)]
  | .vBool _, .vInt _, h => by simp [Value.beq] at h
  | .vBool _, .vStr _, h => by simp [Value.beq] at h
  | .vBool _, .vList _, h => by simp [Value.beq] at h
  | .vBool _, .vMap _, h => by simp [Value.beq] at h
  | .vInt _, .vBool _, h => by simp [Value.beq] at h
  | .vInt _, .vStr _, h => by simp [Value.beq] at h
  | .vInt _, .vList _, h => by simp [Value.beq] at h
  | .vInt _, .vMap _, h => by simp [Value.beq] at h
  | .vStr _, .vBool _, h => by simp [Value.beq] at h
  | .vStr _, .vInt _, h => by simp [Value.beq] at h
  | .vStr _, .vList _, h => by simp [Value.beq] at h
  | .vStr _, .vMap _, h => by simp [Value.beq] at h
  | .vList _, .vBool _, h => by simp [Value.beq] at h
  | .vList _, .vInt _, h => by simp [Value.beq] at h
  | .vList _, .vStr _, h => by simp [Value.beq] at h
  | .vList _, .vMap _, h => by simp [Value.beq] at h
  | .vMap _, .vBool _, h => by simp [Value.beq] at h
  | .vMap _, .vInt _, h => by simp [Value.beq] at h
  | .vMap _, .vStr _, h => by simp [Value.beq] at h
  | .vMap _, .vList _, h => by simp [Value.beq] at h

theorem Value.eqList_of_beqList : ∀ a b : List Value, Value.beqList a b = true → a = b
  | [], [], _ => rfl
  | a :: as, b :: bs, h => by
      simp only [Value.beqList, Bool.and_eq_true] at h
      rw [Value.eq_of_beq a b h.1, Value.eqList_of_beqList as bs h.2]
  | [], _ :: _, h => by simp [Value.beqList] at h
  | _ :: _, [], h => by simp [Value.beqList] at h

theorem Value.eqPairs_of_beqPairs :
    ∀ a b : List (Value × Value), Value.beqPairs a b = true → a = b
  | [], [], _ => rfl
  | (k1, v1) :: as, (k2, v2) :: bs, h => by
      simp only [Value.beqPairs, Bool.and_eq_true] at h
      rw [Value.eq_of_beq k1 k2 h.1.1, Value.eq_of_beq v1 v2 h.1.2,
        Value.eqPairs_of_beqPairs as bs h.2]
  | [], _ :: _, h => by simp [Value.beqPairs] at h
  | _ :: _, [], h => by simp [Value.beqPairs] at h

end

mutual

theorem Value.beq_refl : ∀ a : Value, Value.beq a a = true
  | .vBool _ => by simp [Value.beq]
  | .vInt _ => by simp [Value.beq]
  | .vStr _ => by simp [Value.beq]
  | .vList a => by simpa [Value.beq] using Value.beqList_refl a
  | .vMap a => by simpa [Value.beq] using Value.beqPairs_refl a

theorem Value.beqList_refl : ∀ a : List Value, Value.beqList a a = true
  | [] => rfl
  | a :: as => by
      simp only [Value.beqList, Bool.and_eq_true]
      exact ⟨Value.beq_refl a, Value.beqList_refl as⟩

theorem Value.beqPairs_refl : ∀ a : List (Value × Value), Value.beqPairs a a = true
  | [] => rfl
  | (k, v) :: as => by
      simp only [Value.beqPairs, Bool.and_eq_true]
      exact ⟨⟨Value.beq_refl k, Value.beq_refl v⟩, Value.beqPairs_refl as⟩

end

/-- Structural equality decides propositional equality of runtime values. -/
instance : DecidableEq Value := fun a b =>
  decidable_of_iff (Value.beq a b = true)
    ⟨Value.eq_of_beq a b, fun h => h ▸ Value.beq_refl a⟩

/-- Modelled from the spec: `toBool` assumes a prior type check; a mismatch is
a programmer error, so the value returned on a non-boolean is arbitrary. -/
def Value.toBool : Value → Bool
  | .vBool b => b
  | _ => false

/-- Modelled from the spec: `toInt` assumes a prior type check. -/
def Value.toInt : Value → Int
  | .vInt i => i
  | _ => 0

/-- Modelled from the spec: `toList` assumes a prior type check. -/
def Value.toList : Value → List Value
  | .vList l => l
  | _ => []

/-- Modelled from the spec: `toMap` assumes a prior type check; the map is
its association list in insertion order. -/
def Value.toMapAL : Value → List (Value × Value)
  | .vMap m => m
  | _ => []

/-- Modelled from the spec: `normalForm(v)` is a canonical representation used
as a map key.  This `Value` model is already canonical (it has no unnormalized
set or record shapes), so normal form is the identity here. -/
def Value.normalForm (v : Value) : Value := v

/-- The mutable evaluation state of `CompilerVisitor`: the value columns of
the current-state registers (`vars`) and next-state registers (`nextVars`),
the `_lastTrace` shadow register, the runtime-error log (messages only; the
source attaches source ids, which the claims do not depend on), and the
oracle stream of random draws modelling `Math.random()`.  The register count
is fixed at compilation: computables mutate register values, never the
register arrays themselves. -/
structure State where
  vars : List (Option Value)
  nextVars : List (Option Value)
  lastTrace : Option Value
  errors : List String
  rand : List Nat
deriving DecidableEq

deriving instance DecidableEq for Except

/-- A computable: a lazy thunk producing an optional value, here a function
threading the evaluation state. -/
abbrev Comp := State → Option Value × State

/-- Append a message to the runtime-error log (`addRuntimeError`). -/
def addError (m : String) (s : State) : State := { s with errors := s.errors ++ [m] }

/-- `snapshotVars`: save the values of the vars into an array. -/
def snapshotVars (s : State) : List (Option Value) := s.vars

/-- `snapshotNextVars`: save the values of the next vars into an array. -/
def snapshotNextVars (s : State) : List (Option Value) := s.nextVars

/-- `recoverVars`: load the values of the variables from an array.  The source
iterates over its fixed register array and assigns `values[i]` to register
`i`; registers beyond the snapshot length (unreachable in the source, where
snapshots always come from the same fixed array) read a default `none`. -/
def recoverVars (values : List (Option Value)) (s : State) : State :=
  { s with vars := (List.range s.vars.length).map fun i => values.getD i none }

/-- `recoverNextVars`: load the values of the next variables from an array. -/
def recoverNextVars (values : List (Option Value)) (s : State) : State :=
  { s with nextVars := (List.range s.nextVars.length).map fun i => values.getD i none }

/-- `shiftVars`: copy the next-state registers into the current-state
registers, then clear every next-state register. -/
def shiftVars (s : State) : State :=
  let s1 := recoverVars (snapshotNextVars s) s
  { s1 with nextVars := s1.nextVars.map fun _ => none }

/-- `isTrue` of the simulator: a result counts as true iff it is a value
whose boolean coercion is `true`. -/
def isTrue : Option Value → Bool
  | some v => v.toBool
  | none => false

/-- Consume one draw from the random oracle stream; models one call of
`Math.random()` (an empty stream reads as draw 0). -/
def randNat (s : State) : Nat × State := (s.rand.headD 0, { s with rand := s.rand.tail })

/-- A computable holding a constant runtime value (`mkConstComputable`). -/
def constComp (v : Value) : Comp := fun s => (some v, s)

/-- A computable that fails, recording a runtime error — any expression whose
evaluation raises a runtime error behaves like this at its use site. -/
def errComp (m : String) : Comp := fun s => (none, addError m s)

/-- Reading a current-state register (a `var` register computable): an unset
register reports a runtime error and yields no value. -/
def readVar (i : Nat) : Comp := fun s =>
  match s.vars.getD i none with
  | some v => (some v, s)
  | none => (none, addError "Variable is not set" s)

/-- Reading a next-state register (opcode `next`). -/
def readNextVar (i : Nat) : Comp := fun s =>
  match s.nextVars.getD i none with
  | some v => (some v, s)
  | none => (none, addError "next variable is not set" s)

/-- Opcode `assign`: evaluate the right-hand side; if it yields a value, store
it in the next-state register and return `true`; a failed right-hand side
propagates "no value". -/
def assignComp (i : Nat) (rhs : Comp) : Comp := fun s =>
  match rhs s with
  | (some v, s1) => (some (.vBool true), { s1 with nextVars := s1.nextVars.set i (some v) })
  | (none, s1) => (none, s1)

/-- Evaluate a list of argument computables left-to-right, collecting every
result (the `args.map(a => a.eval())` step of `applyFun`). -/
def evalArgsAll : List Comp → State → List (Option Value) × State
  | [], s => ([], s)
  | a :: rest, s =>
    match a s with
    | (r, s1) =>
      match evalArgsAll rest s1 with
      | (rs, s2) => (r :: rs, s2)

/-- The `merge` step of `applyFun`: all argument values, or `none` if any
argument failed. -/
def allSome : List (Option Value) → Option (List Value)
  | [] => some []
  | some v :: rest => (allSome rest).map fun vs => v :: vs
  | none :: _ => none

/-- `applyFun`: pop the argument computables and combine them with a strict
operator function.  All arguments are evaluated; if any yields no value the
application yields no value; otherwise the operator runs and either returns a
value or records a runtime error and yields no value (`Except.error` stands
for the `addRuntimeError`-then-`none` path of the source). -/
def applyFunC (f : List Value → Except String Value) (args : List Comp) : Comp := fun s =>
  match evalArgsAll args s with
  | (vals, s1) =>
    match allSome vals with
    | none => (none, s1)
    | some vs =>
      match f vs with
      | .ok v => (some v, s1)
      | .error m => (none, addError m s1)

/-! ### Strict built-in operators (cases of `exitApp` compiled via `applyFun`) -/

/-- Opcode `eq`: structural equality of the two operands. -/
def evalEq : List Value → Except String Value
  | [x, y] => .ok (.vBool (x = y))
  | _ => .error "wrong number of arguments"

/-- Opcode `ilte`: integer comparison `p <= q`. -/
def evalIlte : List Value → Except String Value
  | [p, q] => .ok (.vBool (p.toInt ≤ q.toInt))
  | _ => .error "wrong number of arguments"

/-- Opcode `iadd`: integer addition. -/
def evalIadd : List Value → Except String Value
  | [p, q] => .ok (.vInt (p.toInt + q.toInt))
  | _ => .error "wrong number of arguments"

/-- Opcode `idiv`: if the divisor is non-zero return the quotient (JavaScript
`BigInt` division truncates toward zero, hence `Int.tdiv`), otherwise record
the runtime error "Division by zero" and yield no value. -/
def evalIdiv : List Value → Except String Value
  | [p, q] =>
    if q.toInt ≠ 0 then .ok (.vInt (p.toInt.tdiv q.toInt))
    else .error "Division by zero"
  | _ => .error "wrong number of arguments"

/-- Opcode `imod`: the source computes `p % q` with no zero test; JavaScript
throws a `RangeError` on a zero `BigInt` modulus, which `applyFun` catches and
records as a runtime error, yielding no value.  For non-zero `q` the result is
the JavaScript truncated remainder, `Int.tmod`. -/
def evalImod : List Value → Except String Value
  | [p, q] =>
    if q.toInt = 0 then .error "Division by zero"
    else .ok (.vInt (p.toInt.tmod q.toInt))
  | _ => .error "wrong number of arguments"

/-- Opcode `ipow`: `0 ^ 0` and negative exponents record a runtime error and
yield no value; otherwise the result is the exact power. -/
def evalIpow : List Value → Except String Value
  | [p, q] =>
    if q.toInt = 0 ∧ p.toInt = 0 then .error "zero to the power of zero is undefined"
    else if q.toInt < 0 then .error "power of a negative exponent is undefined"
    else .ok (.vInt (p.toInt ^ q.toInt.toNat))
  | _ => .error "wrong number of arguments"

/-- Opcode `slice`: guarded by `s >= 0 && s < l.size && e <= l.size && e >= s`
exactly as in the source; inside the bounds it returns the sublist from `s`
inclusive to `e` exclusive, otherwise it records a runtime error and yields no
value. -/
def evalSlice : List Value → Except String Value
  | [list, start, stop] =>
    let l := list.toList
    let s := start.toInt
    let e := stop.toInt
    if 0 ≤ s ∧ s < (l.length : Int) ∧ e ≤ (l.length : Int) ∧ s ≤ e then
      .ok (.vList ((l.drop s.toNat).take (e - s).toNat))
    else .error "slice applied out of bounds"
  | _ => .error "wrong number of arguments"

/-- Look up a key in a map association list (the `map.get(normalKey)` of the
immutable map). -/
def mapGetAL : List (Value × Value) → Value → Option Value
  | [], _ => none
  | (k1, v1) :: rest, k => if k1 = k then some v1 else mapGetAL rest k

/-- Bind a key in a map association list (the `map.set(normalKey, v)` of the
immutable map, an insertion-order map): an existing binding is overwritten in
place, a new key is appended at the end. -/
def mapSetAL : List (Value × Value) → Value → Value → List (Value × Value)
  | [], k, v => [(k, v)]
  | (k1, v1) :: rest, k, v =>
    if k1 = k then (k, v) :: rest else (k1, v1) :: mapSetAL rest k v

/-- Opcode `put`: bind the key (taken in normal form) to the value; unlike
`set` there is no key-existence check, so the operator never fails. -/
def evalPut : List Value → Except String Value
  | [m, k, v] => .ok (.vMap (mapSetAL m.toMapAL k.normalForm v))
  | _ => .error "wrong number of arguments"

/-- Opcode `get`: look up the key (taken in normal form); a missing key
records a runtime error and yields no value. -/
def evalGet : List Value → Except String Value
  | [m, k] =>
    match mapGetAL m.toMapAL k.normalForm with
    | some v => .ok v
    | none => .error "Called get with a non-existing key"
  | _ => .error "wrong number of arguments"

/-! ### Lazy boolean combinators (`translateAnd`, `translateOr`) -/

/-- The loop of `translateAnd`: the running result starts at `true`; each
operand is evaluated with a failure coerced to `false`
(`arg.eval().or(just(false))`), and the loop stops as soon as an operand
is false. -/
def andLoop : List Comp → Option Value → State → Option Value × State
  | [], result, s => (result, s)
  | a :: rest, _, s =>
    match a s with
    | (r, s1) =>
      if (r.getD (Value.vBool false)).toBool = false then
        (some (r.getD (Value.vBool false)), s1)
      else andLoop rest (some (r.getD (Value.vBool false))) s1

/-- Opcode `and` over a brace list: lazy left-to-right conjunction. -/
def evalAnd (args : List Comp) : Comp := fun s => andLoop args (some (.vBool true)) s

/-- The loop of `translateOr`: the running result starts at `false`; each
operand is evaluated with a failure coerced to `false`, and the loop stops as
soon as an operand is true. -/
def orLoop : List Comp → Option Value → State → Option Value × State
  | [], result, s => (result, s)
  | a :: rest, _, s =>
    match a s with
    | (r, s1) =>
      if (r.getD (Value.vBool false)).toBool = true then
        (some (r.getD (Value.vBool false)), s1)
      else orLoop rest (some (r.getD (Value.vBool false))) s1

/-- Opcode `or` over a brace list: lazy left-to-right disjunction. -/
def evalOr (args : List Comp) : Comp := fun s => orLoop args (some (.vBool false)) s

/-! ### Action combinators (`chainAllOrThen`, `translateOrAction`) -/

/-- The two flavours of `chainAllOrThen`: `actionAll` and `then` chains. -/
inductive ChainKind where
  | allK : ChainKind
  | thenK : ChainKind
deriving DecidableEq

/-- The loop of `chainAllOrThen`: actions run left-to-right; as soon as one
yields no value or a non-true value, the next-state registers are restored
from the snapshot `saved` taken before the chain started and that action's
result is returned.  In a `then` chain the registers are shifted between
consecutive actions (`nactionsLeft > 0`). -/
def chainLoop (kind : ChainKind) (saved : List (Option Value)) :
    List Comp → State → Option Value × State
  | [], s => (some (.vBool true), s)
  | a :: rest, s =>
    match a s with
    | (r, s1) =>
      if isTrue r then
        match rest with
        | [] => (r, s1)
        | _ :: _ => chainLoop kind saved rest (if kind = .thenK then shiftVars s1 else s1)
      else (r, recoverNextVars saved s1)

/-- `chainAllOrThen`: snapshot the next-state registers, then run the chain. -/
def chainAllOrThen (actions : List Comp) (kind : ChainKind) : Comp := fun s =>
  chainLoop kind (snapshotNextVars s) actions s

/-- Opcode `actionAll` (`translateAllOrThen` with an `actionAll` opcode). -/
def evalActionAll (actions : List Comp) : Comp := chainAllOrThen actions .allK

/-- Opcode `then` (`translateAllOrThen` with the `then` opcode). -/
def evalActionThen (actions : List Comp) : Comp := chainAllOrThen actions .thenK

/-- The loop of `translateOrAction`: before every branch the next-state
registers are restored to the pre-snapshot `saved`; the branch is evaluated
with failure coerced to `false`; if it is true, the snapshot of the next-state
registers it produced is appended to the candidate successors. -/
def anyLoop (saved : List (Option Value)) :
    List Comp → List (List (Option Value)) → State → List (List (Option Value)) × State
  | [], succs, s => (succs, s)
  | a :: rest, succs, s =>
    match a (recoverNextVars saved s) with
    | (r, s1) =>
      anyLoop saved rest (if isTrue r then succs ++ [snapshotNextVars s1] else succs) s1

/-- Opcode `actionAny` (`translateOrAction`): evaluate every branch from the
pre-snapshot, collect the next-state snapshots of the successful ones; with no
successor restore the pre-snapshot and return `false`; otherwise commit one
collected snapshot chosen by a random draw (`Math.floor(Math.random() * n)`,
modelled as an oracle draw modulo `n`) and return `true`. -/
def translateOrAction (args : List Comp) : Comp := fun s =>
  let saved := snapshotNextVars s
  match anyLoop saved args [] s with
  | (succs, s1) =>
    if succs.length = 0 then (some (.vBool false), recoverNextVars saved s1)
    else
      match randNat s1 with
      | (d, s2) => (some (.vBool true), recoverNextVars (succs.getD (d % succs.length) []) s2)

/-! ### The simulator core (the `_test` opcode, `CompilerVisitor.test`)

The source evaluates the five argument computables to the run count, the step
count and the names of three callables which it then resolves in the compiled
context; the embedding takes the counts and the three callables directly.
A trace entry (`varsToRecord`) is the record of the set state variables; the
embedding keeps the values in register order and drops the field names, which
the claims do not depend on. -/

/-- Convert the current variable values to a trace record: the values of the
registers that are set, in register order. -/
def varsToRecord (s : State) : Value := .vList (s.vars.filterMap id)

/-- The inner loop of a single run: up to `nsteps` steps.  A step invokes
`next`; if that is not true the run is dropped on the spot (no error).
Otherwise the registers are shifted, the state is appended to the trace, and
the invariant is evaluated; a non-true invariant marks the error. -/
def doSteps (next inv : Comp) : Nat → List Value → State → List Value × Bool × State
  | 0, trace, s => (trace, false, s)
  | n + 1, trace, s =>
    match next s with
    | (r, s1) =>
      if isTrue r then
        let s2 := shiftVars s1
        let trace2 := trace ++ [varsToRecord s2]
        match inv s2 with
        | (ri, s3) =>
          if isTrue ri then doSteps next inv n trace2 s3
          else (trace2, true, s3)
      else (trace, false, s1)

/-- One run of the simulator: invoke `init`; if it is not true the run is
abandoned with an empty trace and no error.  Otherwise shift, record the
state, check the invariant, and take up to `nsteps` steps. -/
def runOnce (init next inv : Comp) (nsteps : Nat) (s : State) : List Value × Bool × State :=
  match init s with
  | (r, s1) =>
    if isTrue r then
      let s2 := shiftVars s1
      let trace1 := [varsToRecord s2]
      match inv s2 with
      | (ri, s3) =>
        if isTrue ri then doSteps next inv nsteps trace1 s3
        else (trace1, true, s3)
    else ([], false, s1)

/-- Recovery performed after every run: the current- and next-state registers
are restored from the snapshots taken before the first run. -/
def afterRun (vars0 nexts0 : List (Option Value)) (s : State) : State :=
  recoverNextVars nexts0 (recoverVars vars0 s)

/-- The outer loop of `test`: up to `nruns` runs, stopping at the first run
that finds an error; the registers are recovered after every run, and the
trace of the latest run replaces the previous one. -/
def runsLoop (init next inv : Comp) (nsteps : Nat) (vars0 nexts0 : List (Option Value)) :
    Nat → List Value → State → List Value × Bool × State
  | 0, trace, s => (trace, false, s)
  | n + 1, _, s =>
    match runOnce init next inv nsteps s with
    | (tr, err, s1) =>
      let s2 := afterRun vars0 nexts0 s1
      if err then (tr, true, s2)
      else runsLoop init next inv nsteps vars0 nexts0 n tr s2

/-- Store a value in the `_lastTrace` shadow register. -/
def setLastTrace (v : Value) (s : State) : State := { s with lastTrace := some v }

/-- The `_test` opcode: snapshot the registers, perform the runs, store the
last trace in the `_lastTrace` shadow register, and return `true` iff no
error was found. -/
def testOp (nruns nsteps : Nat) (init next inv : Comp) (s : State) : Option Value × State :=
  let vars0 := snapshotVars s
  let nexts0 := snapshotNextVars s
  match runsLoop init next inv nsteps vars0 nexts0 nruns [] s with
  | (trace, err, s1) => (some (.vBool !err), setLastTrace (.vList trace) s1)

/-! ### Specification-side predicates

The definitions below restate, independently of the loop implementations
above, what the spec says the combinators and the simulator compute; the
claims relate them to the source-derived definitions. -/

/-- All actions of a chain succeed: evaluated left-to-right, every action
yields a value that is true (threading the state). -/
def allSucceedB : List Comp → State → Bool
  | [], _ => true
  | a :: rest, s => isTrue (a s).1 && allSucceedB rest (a s).2

/-- A computable preserves the number of next-state registers.  Every
computable produced by the compiler does: registers are allocated at variable
declaration and only their values are ever mutated. -/
def PreservesNextLen (c : Comp) : Prop :=
  ∀ s : State, ((c s).2).nextVars.length = s.nextVars.length

/-- A computable preserves the number of current-state registers. -/
def PreservesVarsLen (c : Comp) : Prop :=
  ∀ s : State, ((c s).2).vars.length = s.vars.length

/-- The candidate successors of an `actionAny`: for each branch in order,
restore the pre-snapshot, evaluate the branch, and keep the next-state
register values it produced if it returned true. -/
def collectSuccs (saved : List (Option Value)) :
    List Comp → State → List (List (Option Value)) × State
  | [], s => ([], s)
  | a :: rest, s =>
    match a (recoverNextVars saved s) with
    | (r, s1) =>
      match collectSuccs saved rest s1 with
      | (tl, s2) => ((if isTrue r then [s1.nextVars] else []) ++ tl, s2)

/-- The states before each simulated run, had no run stopped the loop: run
`k + 1` starts from the post-recovery state of run `k`. -/
def runStates (init next inv : Comp) (nsteps : Nat) (vars0 nexts0 : List (Option Value)) :
    Nat → State → State
  | 0, s => s
  | k + 1, s =>
      runStates init next inv nsteps vars0 nexts0 k
        (afterRun vars0 nexts0 (runOnce init next inv nsteps s).2.2)

/-- Run number `k` (counting from the state `s` at the start of the run loop)
produces an invariant violation. -/
def runViolates (init next inv : Comp) (nsteps : Nat) (vars0 nexts0 : List (Option Value))
    (s : State) (k : Nat) : Prop :=
  (runOnce init next inv nsteps (runStates init next inv nsteps vars0 nexts0 k s)).2.1 = true

/-- Observational agreement of two states: equal register banks and equal
random oracle streams (the error log and the stored trace are excluded). -/
def obsEq (s t : State) : Prop :=
  s.vars = t.vars ∧ s.nextVars = t.nextVars ∧ s.rand = t.rand

/-- A computable is oblivious to the error log and the stored trace: from
observationally equal states it produces equal results and observationally
equal states.  Every computable produced by the compiler is: the error log
and the `_lastTrace` shadow register are write-only during evaluation. -/
def Oblivious (c : Comp) : Prop :=
  ∀ s t : State, obsEq s t → (c s).1 = (c t).1 ∧ obsEq (c s).2 (c t).2

end Quint

namespace Tnt

/-! ### Name resolver (`src/tntc/src/nameResolver.ts`)

The IR, the scope tree and the walker come from modules that are not under
`src/` (`tntIr.ts`, `scoping.ts`, `IRVisitor.ts`); they are modelled from the
spec: expressions are literals, name references, operator applications and
lambdas; definitions are operator definitions and variable declarations with
an optional type annotation; the walk is depth-first with children in source
order and enter hooks firing before the children; `scopesFor` is an abstract
function from a node identity to its enclosing scope identities. -/

/-- A value definition of the definition table: an identifier with an
optional scope identity (no scope means module-global). -/
structure ValueDefinition where
  identifier : String
  scope : Option Nat
deriving DecidableEq

/-- A type definition of the definition table (type definitions are
module-global). -/
structure TypeDefinition where
  identifier : String
deriving DecidableEq

/-- The per-module definition table: value definitions and type
definitions. -/
structure DefinitionTable where
  valueDefinitions : List ValueDefinition
  typeDefinitions : List TypeDefinition

/-- The kind of a name-resolution error. -/
inductive ErrKind where
  | value : ErrKind
  | type : ErrKind
deriving DecidableEq

/-- A single name-resolution error (`NameError`). -/
structure NameError where
  kind : ErrKind
  name : String
  definitionName : String
  moduleName : String
  reference : Nat
deriving DecidableEq

/-- The result of name resolution (`NameResolutionResult`). -/
inductive NameResolutionResult where
  | ok : NameResolutionResult
  | error : List NameError → NameResolutionResult
deriving DecidableEq

/-- Modelled from the spec: a type reference inside an annotation, a `const`
or `var` type name carrying the identity of the referencing node. -/
inductive TntType where
  | constT : Nat → String → TntType
  | varT : Nat → String → TntType

/-- Modelled from the spec: IR expressions — literals, name references,
operator applications, lambdas. -/
inductive TntEx where
  | lit : Nat → Bool → TntEx
  | nm : Nat → String → TntEx
  | app : Nat → String → List TntEx → TntEx
  | lam : Nat → List String → TntEx → TntEx

/-- Modelled from the spec: IR definitions — operator definitions and
variable declarations with an optional type annotation. -/
inductive TntDef where
  | opdef : Nat → String → TntEx → TntDef
  | vardef : Nat → String → Option TntType → TntDef

/-- Modelled from the spec: a module is a name with a body of definitions. -/
structure TntModule where
  name : String
  defs : List TntDef

/-- The name under which a definition's errors are attributed (`enterDef`
remembers the last visited definition's name). -/
def TntDef.defName : TntDef → String
  | .opdef _ n _ => n
  | .vardef _ n _ => n

/-- `filterScope`: a definition is kept for a reference iff it is unscoped or
its scope is among the scopes enclosing the reference. -/
def filterScope (valueDefinitions : List ValueDefinition) (scopes : List Nat) :
    List ValueDefinition :=
  valueDefinitions.filter fun d =>
    match d.scope with
    | none => true
    | some sc => scopes.contains sc

/-- The check of `enterName`/`enterApp`: some in-scope value definition has
the referenced identifier. -/
def resolvesValue (t : DefinitionTable) (sf : Nat → List Nat) (i : Nat) (n : String) : Bool :=
  (filterScope t.valueDefinitions (sf i)).any fun d => d.identifier = n

/-- The check of `enterVarType`/`enterConstType`: some type definition has the
referenced identifier. -/
def resolvesType (t : DefinitionTable) (n : String) : Bool :=
  t.typeDefinitions.any fun d => d.identifier = n

mutual

/-- The value-kind errors the resolver visitor records inside an expression,
in visit order (enter hooks fire before the children). -/
def errorsOfExpr (t : DefinitionTable) (sf : Nat → List Nat) (dn mn : String) :
    TntEx → List NameError
  | .lit _ _ => []
  | .nm i n => if resolvesValue t sf i n then [] else [⟨.value, n, dn, mn, i⟩]
  | .app i op args =>
      (if resolvesValue t sf i op then [] else [⟨.value, op, dn, mn, i⟩]) ++
        errorsOfExprs t sf dn mn args
  | .lam _ _ body => errorsOfExpr t sf dn mn body

/-- The errors of a list of sibling expressions, in source order. -/
def errorsOfExprs (t : DefinitionTable) (sf : Nat → List Nat) (dn mn : String) :
    List TntEx → List NameError
  | [] => []
  | e :: es => errorsOfExpr t sf dn mn e ++ errorsOfExprs t sf dn mn es

end

/-- The errors the resolver visitor records inside one definition; the
definition's own name is remembered (`enterDef`) to attribute the errors. -/
def errorsOfDef (t : DefinitionTable) (sf : Nat → List Nat) (mn : String) :
    TntDef → List NameError
  | .opdef _ n e => errorsOfExpr t sf n mn e
  | .vardef _ n ty =>
    match ty with
    | none => []
    | some (.constT i tn) => if resolvesType t tn then [] else [⟨.type, tn, n, mn, i⟩]
    | some (.varT i tn) => if resolvesType t tn then [] else [⟨.type, tn, n, mn, i⟩]

/-- All errors recorded while walking a module, in walk order. -/
def errorsOfModule (m : TntModule) (t : DefinitionTable) (sf : Nat → List Nat) :
    List NameError :=
  m.defs.flatMap (errorsOfDef t sf m.name)

/-- `resolveNames`: walk the module and aggregate every recorded error
(`mergeNameResults`); the result is ok iff no error was recorded. -/
def resolveNames (m : TntModule) (t : DefinitionTable) (sf : Nat → List Nat) :
    NameResolutionResult :=
  let errors := errorsOfModule m t sf
  if errors.length > 0 then .error errors else .ok

mutual

/-- Specification-side collection of the value references of an expression:
the identity and name of every name expression and of the opcode of every
operator application, in visit order. -/
def valueRefsOfExpr : TntEx → List (Nat × String)
  | .lit _ _ => []
  | .nm i n => [(i, n)]
  | .app i op args => (i, op) :: valueRefsOfExprs args
  | .lam _ _ body => valueRefsOfExpr body

/-- The value references of a list of sibling expressions. -/
def valueRefsOfExprs : List TntEx → List (Nat × String)
  | [] => []
  | e :: es => valueRefsOfExpr e ++ valueRefsOfExprs es

end

/-- The value references of a definition. -/
def valueRefsOfDef : TntDef → List (Nat × String)
  | .opdef _ _ e => valueRefsOfExpr e
  | .vardef _ _ _ => []

/-- The value references of a module. -/
def valueRefs (m : TntModule) : List (Nat × String) :=
  m.defs.flatMap valueRefsOfDef

/-- The type-name references of a definition. -/
def typeRefsOfDef : TntDef → List (Nat × String)
  | .opdef _ _ _ => []
  | .vardef _ _ ty =>
    match ty with
    | none => []
    | some (.constT i tn) => [(i, tn)]
    | some (.varT i tn) => [(i, tn)]

/-- The type-name references of a module. -/
def typeRefs (m : TntModule) : List (Nat × String) :=
  m.defs.flatMap typeRefsOfDef

/-- Specification-side in-scope resolvability of a value reference: some
value definition has the referenced identifier and is unscoped or scoped to
one of the scopes enclosing the reference. -/
def resolvableValue (t : DefinitionTable) (sf : Nat → List Nat) (r : Nat × String) : Bool :=
  t.valueDefinitions.any fun d =>
    d.identifier = r.2 &&
      match d.scope with
      | none => true
      | some sc => (sf r.1).contains sc

/-- Specification-side resolvability of a type reference. -/
def resolvableType (t : DefinitionTable) (r : Nat × String) : Bool :=
  t.typeDefinitions.any fun d => d.identifier = r.2

end Tnt

namespace Quint

/-! ### Shared lemmas about register recovery -/

theorem range_map_getD {α : Type} (l : List α) (d : α) :
    (List.range l.length).map (fun i => l.getD i d) = l := by
  induction l with
  | nil => rfl
  | cons a l ih =>
    rw [List.length_cons, List.range_succ_eq_map, List.map_cons, List.map_map]
    simp only [Function.comp_def, List.getD_cons_succ, List.getD_cons_zero]
    rw [ih]

theorem range_map_getD_of_len {α : Type} (l : List α) (d : α) (n : Nat)
    (h : n = l.length) : (List.range n).map (fun i => l.getD i d) = l := by
  subst h
  exact range_map_getD l d

theorem recoverNextVars_nextVars (values : List (Option Value)) (s : State) :
    (recoverNextVars values s).nextVars =
      (List.range s.nextVars.length).map fun i => values.getD i none := rfl

theorem recoverNextVars_len (values : List (Option Value)) (s : State) :
    (recoverNextVars values s).nextVars.length = s.nextVars.length := by
  simp [recoverNextVars]

/-- Claim C9: recovering from a snapshot is the identity on the register
bank — `recoverVars (snapshotVars s)` and `recoverNextVars (snapshotNextVars
s)` applied to `s` give back `s` — and a held snapshot is independent of
later mutation: applying the recovery to any state `t` obtained by mutating
register values (the register count is fixed at compilation) restores exactly
the snapshotted columns of `s`. -/
theorem snapshot_recover_id (s t : State)
    (hv : t.vars.length = s.vars.length) (hn : t.nextVars.length = s.nextVars.length) :
    recoverVars (snapshotVars s) s = s ∧
    recoverNextVars (snapshotNextVars s) s = s ∧
    (recoverVars (snapshotVars s) t).vars = s.vars ∧
    (recoverNextVars (snapshotNextVars s) t).nextVars = s.nextVars := by
  obtain ⟨sv, sn, sl, se, sr⟩ := s
  obtain ⟨tv, tn, tl, te, tr⟩ := t
  simp only [List.length_cons] at hv hn
  refine ⟨?_, ?_, ?_, ?_⟩
  · simp only [recoverVars, snapshotVars]
    rw [range_map_getD]
  · simp only [recoverNextVars, snapshotNextVars]
    rw [range_map_getD]
  · simp only [recoverVars, snapshotVars]
    exact range_map_getD_of_len sv none tv.length hv
  · simp only [recoverNextVars, snapshotNextVars]
    exact range_map_getD_of_len sn none tn.length hn

/-- Witness for C9 at a concrete register bank and a mutated copy. -/
theorem snapshot_recover_id_witness :
    recoverVars (snapshotVars ⟨[some (Value.vInt 3), none], [none], none, [], []⟩)
        ⟨[some (Value.vInt 3), none], [none], none, [], []⟩ =
      ⟨[some (Value.vInt 3), none], [none], none, [], []⟩ ∧
    (recoverNextVars
        (snapshotNextVars ⟨[some (Value.vInt 3), none], [none], none, [], []⟩)
        ⟨[some (Value.vInt 7), none], [some (Value.vInt 8)], none, [], []⟩).nextVars =
      [none] :=
  ⟨(snapshot_recover_id ⟨[some (Value.vInt 3), none], [none], none, [], []⟩
      ⟨[some (Value.vInt 7), none], [some (Value.vInt 8)], none, [], []⟩
      (by decide) (by decide)).1,
   (snapshot_recover_id ⟨[some (Value.vInt 3), none], [none], none, [], []⟩
      ⟨[some (Value.vInt 7), none], [some (Value.vInt 8)], none, [], []⟩
      (by decide) (by decide)).2.2.2⟩

/-- Claim C8: `idiv` and `imod` fail (record a runtime error, yield no value)
exactly on a zero divisor and otherwise return the exact truncated quotient
and remainder; `ipow` fails exactly on a negative exponent or on `0 ^ 0` and
otherwise returns the exact power; at the computable level the failure is a
`none` result with the message appended to the runtime-error log. -/
theorem arith_partiality (p q : Int) :
    (q = 0 →
      evalIdiv [.vInt p, .vInt q] = .error "Division by zero" ∧
      evalImod [.vInt p, .vInt q] = .error "Division by zero") ∧
    (q ≠ 0 →
      evalIdiv [.vInt p, .vInt q] = .ok (.vInt (p.tdiv q)) ∧
      evalImod [.vInt p, .vInt q] = .ok (.vInt (p.tmod q))) ∧
    (q < 0 → evalIpow [.vInt p, .vInt q] = .error "power of a negative exponent is undefined") ∧
    (p = 0 ∧ q = 0 →
      evalIpow [.vInt p, .vInt q] = .error "zero to the power of zero is undefined") ∧
    (0 ≤ q ∧ ¬(p = 0 ∧ q = 0) → evalIpow [.vInt p, .vInt q] = .ok (.vInt (p ^ q.toNat))) ∧
    (∀ s : State, q = 0 →
      applyFunC evalIdiv [constComp (.vInt p), constComp (.vInt q)] s =
        (none, addError "Division by zero" s) ∧
      applyFunC evalImod [constComp (.vInt p), constComp (.vInt q)] s =
        (none, addError "Division by zero" s)) := by
  refine ⟨?_, ?_, ?_, ?_, ?_, ?_⟩
  · intro h
    simp [evalIdiv, evalImod, Value.toInt, h]
  · intro h
    simp [evalIdiv, evalImod, Value.toInt, h]
  · intro h
    have h0 : ¬(q = 0) := by omega
    simp [evalIpow, Value.toInt, h, h0]
  · intro h
    simp [evalIpow, Value.toInt, h.1, h.2]
  · intro h
    rcases h with ⟨h1, h2⟩
    have hcond : ¬(q = 0 ∧ p = 0) := fun hc => h2 ⟨hc.2, hc.1⟩
    have hneg : ¬(q < 0) := by omega
    simp [evalIpow, Value.toInt, hcond, hneg]
  · intro s h
    constructor
    · simp [applyFunC, evalArgsAll, allSome, constComp, evalIdiv, Value.toInt, h]
    · simp [applyFunC, evalArgsAll, allSome, constComp, evalImod, Value.toInt, h]

/-- Witness for C8 at concrete operands. -/
theorem arith_partiality_witness :
    evalIdiv [Value.vInt 7, Value.vInt 0] = .error "Division by zero" ∧
    evalIdiv [Value.vInt 7, Value.vInt 2] = .ok (Value.vInt 3) ∧
    evalIpow [Value.vInt 2, Value.vInt (-1)] = .error "power of a negative exponent is undefined" ∧
    evalIpow [Value.vInt 0, Value.vInt 0] = .error "zero to the power of zero is undefined" ∧
    evalIpow [Value.vInt 2, Value.vInt 3] = .ok (Value.vInt 8) :=
  ⟨((arith_partiality 7 0).1 rfl).1,
   ((arith_partiality 7 2).2.1 (by decide)).1,
   (arith_partiality 2 (-1)).2.2.1 (by decide),
   (arith_partiality 0 0).2.2.2.1 ⟨rfl, rfl⟩,
   (arith_partiality 2 3).2.2.2.2.1 ⟨by decide, by decide⟩⟩

/-- Counterexample to claim C7 as stated: for the empty list and
`s = e = 0` the claimed success condition `0 ≤ s ≤ e ≤ size(l)` holds, yet
the source guard additionally requires `s < size(l)`, so `slice` records a
runtime error and yields no value. -/
theorem slice_claim_counterexample :
    (0 : Int) ≤ 0 ∧ (0 : Int) ≤ (0 : Int) ∧
      (0 : Int) ≤ (([] : List Value).length : Int) ∧
    evalSlice [Value.vList [], Value.vInt 0, Value.vInt 0] =
      .error "slice applied out of bounds" := by decide

/-- Claim C7 as amended: `slice(l, s, e)` succeeds exactly when
`0 ≤ s < size(l)` and `s ≤ e ≤ size(l)` (the source guard also demands
`s < size(l)`, so an empty-slice call at `s = e = size(l)` fails), returning
the sublist from `s` inclusive to `e` exclusive; outside those bounds the
computable yields no value and records a runtime error. -/
theorem slice_spec (l : List Value) (si ei : Int) :
    ((∃ v, evalSlice [.vList l, .vInt si, .vInt ei] = .ok v) ↔
      0 ≤ si ∧ si < (l.length : Int) ∧ si ≤ ei ∧ ei ≤ (l.length : Int)) ∧
    (0 ≤ si ∧ si < (l.length : Int) ∧ si ≤ ei ∧ ei ≤ (l.length : Int) →
      evalSlice [.vList l, .vInt si, .vInt ei] =
        .ok (.vList ((l.drop si.toNat).take (ei - si).toNat))) ∧
    (¬(0 ≤ si ∧ si < (l.length : Int) ∧ si ≤ ei ∧ ei ≤ (l.length : Int)) →
      ∀ s : State,
        applyFunC evalSlice
            [constComp (.vList l), constComp (.vInt si), constComp (.vInt ei)] s =
          (none, addError "slice applied out of bounds" s)) := by
  have hcond : (0 ≤ si ∧ si < (l.length : Int) ∧ ei ≤ (l.length : Int) ∧ si ≤ ei) ↔
      (0 ≤ si ∧ si < (l.length : Int) ∧ si ≤ ei ∧ ei ≤ (l.length : Int)) := by tauto
  have hok : ∀ h : 0 ≤ si ∧ si < (l.length : Int) ∧ ei ≤ (l.length : Int) ∧ si ≤ ei,
      evalSlice [.vList l, .vInt si, .vInt ei] =
        .ok (.vList ((l.drop si.toNat).take (ei - si).toNat)) := by
    intro h
    simp only [evalSlice, Value.toList, Value.toInt]
    rw [if_pos h]
  have herr : ∀ _ : ¬(0 ≤ si ∧ si < (l.length : Int) ∧ ei ≤ (l.length : Int) ∧ si ≤ ei),
      evalSlice [.vList l, .vInt si, .vInt ei] = .error "slice applied out of bounds" := by
    intro h
    simp only [evalSlice, Value.toList, Value.toInt]
    rw [if_neg h]
  refine ⟨?_, ?_, ?_⟩
  · constructor
    · rintro ⟨v, hv⟩
      by_cases hc : 0 ≤ si ∧ si < (l.length : Int) ∧ ei ≤ (l.length : Int) ∧ si ≤ ei
      · exact hcond.mp hc
      · rw [herr hc] at hv
        exact absurd hv (by simp)
    · intro hc
      exact ⟨.vList ((l.drop si.toNat).take (ei - si).toNat), hok (hcond.mpr hc)⟩
  · intro hc
    exact hok (hcond.mpr hc)
  · intro hc s
    have hc' : ¬(0 ≤ si ∧ si < (l.length : Int) ∧ ei ≤ (l.length : Int) ∧ si ≤ ei) :=
      fun h => hc (hcond.mp h)
    simp [applyFunC, evalArgsAll, allSome, constComp, herr hc']

/-- Witness for C7 at a concrete list and bounds. -/
theorem slice_spec_witness :
    evalSlice [Value.vList [Value.vInt 10, Value.vInt 11, Value.vInt 12],
        Value.vInt 1, Value.vInt 3] =
      .ok (Value.vList [Value.vInt 11, Value.vInt 12]) ∧
    applyFunC evalSlice
        [constComp (Value.vList []), constComp (Value.vInt 1), constComp (Value.vInt 1)]
        ⟨[], [], none, [], []⟩ =
      (none, addError "slice applied out of bounds" ⟨[], [], none, [], []⟩) :=
  ⟨by
    have h := (slice_spec [Value.vInt 10, Value.vInt 11, Value.vInt 12] 1 3).2.1
      (by refine ⟨by decide, by decide, by decide, by decide⟩)
    simpa using h,
   (slice_spec [] 1 1).2.2 (by decide) ⟨[], [], none, [], []⟩⟩

/-! ### Map update lemmas (claim C10) -/

theorem mapGetAL_mapSetAL_self (al : List (Value × Value)) (k v : Value) :
    mapGetAL (mapSetAL al k v) k = some v := by
  induction al with
  | nil => simp [mapGetAL, mapSetAL]
  | cons a al ih =>
    rcases a with ⟨k1, v1⟩
    by_cases h : k1 = k
    · simp [mapGetAL, mapSetAL, h]
    · simp [mapGetAL, mapSetAL, h, ih]

theorem mapGetAL_mapSetAL_other (al : List (Value × Value)) (k v k' : Value) (hk : k' ≠ k) :
    mapGetAL (mapSetAL al k v) k' = mapGetAL al k' := by
  have hkk : ¬(k = k') := fun hc => hk hc.symm
  induction al with
  | nil => simp [mapGetAL, mapSetAL, hkk]
  | cons a al ih =>
    rcases a with ⟨k1, v1⟩
    by_cases h : k1 = k
    · have h1 : ¬(k1 = k') := fun hc => hk (h ▸ hc).symm
      simp [mapGetAL, mapSetAL, h, hkk, h1]
    · by_cases h2 : k1 = k'
      · simp [mapGetAL, mapSetAL, h, h2, hk]
      · simp [mapGetAL, mapSetAL, h, h2, ih]

/-- Claim C10: `put(m, k, v)` never fails; it binds `k` (in normal form) to
`v`, overwriting an existing binding, and every other key keeps its original
binding (reading the result with `get` at `k` yields `v`, and at any other
key yields exactly what `get` yields on the original map). -/
theorem map_put_spec (al : List (Value × Value)) (k v : Value) :
    evalPut [.vMap al, k, v] = .ok (.vMap (mapSetAL al k v)) ∧
    evalGet [.vMap (mapSetAL al k v), k] = .ok v ∧
    (∀ k' : Value, k' ≠ k → evalGet [.vMap (mapSetAL al k v), k'] = evalGet [.vMap al, k']) := by
  refine ⟨rfl, ?_, ?_⟩
  · simp [evalGet, Value.toMapAL, Value.normalForm, mapGetAL_mapSetAL_self]
  · intro k' hk
    simp only [evalGet, Value.toMapAL, Value.normalForm,
      mapGetAL_mapSetAL_other al k v k' hk]

/-- Witness for C10 at a concrete two-entry map. -/
theorem map_put_spec_witness :
    evalGet [Value.vMap (mapSetAL [(Value.vInt 1, Value.vInt 10), (Value.vInt 2, Value.vInt 20)]
        (Value.vInt 1) (Value.vInt 99)), Value.vInt 2] =
      evalGet [Value.vMap [(Value.vInt 1, Value.vInt 10), (Value.vInt 2, Value.vInt 20)],
        Value.vInt 2] :=
  (map_put_spec [(Value.vInt 1, Value.vInt 10), (Value.vInt 2, Value.vInt 20)]
      (Value.vInt 1) (Value.vInt 99)).2.2 (Value.vInt 2) (by decide)

/-! ### Boolean short-circuit (claim C5) -/

/-- Claim C5: `and` and `or` evaluate their operands left-to-right;
`and` stops at the first false operand returning `false` and `or` stops at
the first true operand returning `true`, in either case never evaluating the
later operands (`d` is an arbitrary computable, in particular one that would
record a runtime error: the returned state is untouched by it); an operand
that yields no value is coerced to `false` in both combinators; when no
short-circuit applies the next operand is evaluated and its coerced result
becomes the running result. -/
theorem bool_shortcircuit (d : Comp) (s : State) :
    evalAnd [constComp (.vBool false), d] s = (some (.vBool false), s) ∧
    evalOr [constComp (.vBool true), d] s = (some (.vBool true), s) ∧
    (∀ c : Comp, (c s).1 = none → evalAnd [c, d] s = (some (.vBool false), (c s).2)) ∧
    (∀ c : Comp, (c s).1 = none → evalOr [c] s = (some (.vBool false), (c s).2)) ∧
    (∀ c : Comp, evalAnd [constComp (.vBool true), c] s =
      (some ((c s).1.getD (.vBool false)), (c s).2)) ∧
    (∀ c : Comp, evalOr [constComp (.vBool false), c] s =
      (some ((c s).1.getD (.vBool false)), (c s).2)) := by
  refine ⟨?_, ?_, ?_, ?_, ?_, ?_⟩
  · simp [evalAnd, andLoop, constComp, Value.toBool]
  · simp [evalOr, orLoop, constComp, Value.toBool]
  · intro c hc
    rcases h : c s with ⟨r, s1⟩
    rw [h] at hc
    simp only at hc
    subst hc
    simp [evalAnd, andLoop, h, Value.toBool]
  · intro c hc
    rcases h : c s with ⟨r, s1⟩
    rw [h] at hc
    simp only at hc
    subst hc
    simp [evalOr, orLoop, Value.toBool, h]
  · intro c
    rcases h : c s with ⟨r, s1⟩
    by_cases hb : (r.getD (Value.vBool false)).toBool = false
    · simp [evalAnd, andLoop, constComp, Value.toBool, h, hb]
    · simp [evalAnd, andLoop, constComp, Value.toBool, h, hb]
  · intro c
    rcases h : c s with ⟨r, s1⟩
    by_cases hb : (r.getD (Value.vBool false)).toBool = true
    · simp [evalOr, orLoop, constComp, Value.toBool, h, hb]
    · simp [evalOr, orLoop, constComp, Value.toBool, h, hb]

/-- Witness for C5 with a diverging second operand and a failing operand. -/
theorem bool_shortcircuit_witness :
    evalAnd [constComp (Value.vBool false), errComp "diverge"] ⟨[], [], none, [], []⟩ =
      (some (Value.vBool false), ⟨[], [], none, [], []⟩) ∧
    evalOr [constComp (Value.vBool true), errComp "diverge"] ⟨[], [], none, [], []⟩ =
      (some (Value.vBool true), ⟨[], [], none, [], []⟩) ∧
    evalAnd [errComp "failing operand", errComp "diverge"] ⟨[], [], none, [], []⟩ =
      (some (Value.vBool false), (errComp "failing operand" ⟨[], [], none, [], []⟩).2) :=
  ⟨(bool_shortcircuit (errComp "diverge") ⟨[], [], none, [], []⟩).1,
   (bool_shortcircuit (errComp "diverge") ⟨[], [], none, [], []⟩).2.1,
   (bool_shortcircuit (errComp "diverge") ⟨[], [], none, [], []⟩).2.2.1
     (errComp "failing operand") rfl⟩

/-! ### Action conjunction (claim C2) -/

theorem preservesNextLen_constComp (v : Value) : PreservesNextLen (constComp v) :=
  fun _ => rfl

theorem preservesNextLen_errComp (m : String) : PreservesNextLen (errComp m) :=
  fun _ => rfl

theorem preservesNextLen_assignComp_const (i : Nat) (v : Value) :
    PreservesNextLen (assignComp i (constComp v)) := by
  intro s
  simp [assignComp, constComp]

theorem chainLoop_all (actions : List Comp) :
    ∀ (saved : List (Option Value)) (s : State),
      (∀ c ∈ actions, PreservesNextLen c) →
      isTrue (chainLoop .allK saved actions s).1 = allSucceedB actions s ∧
      (allSucceedB actions s = false →
        ((chainLoop .allK saved actions s).2).nextVars =
          (List.range s.nextVars.length).map fun i => saved.getD i none) := by
  induction actions with
  | nil =>
    intro saved s _
    constructor
    · simp [chainLoop, allSucceedB, isTrue, Value.toBool]
    · intro hfalse
      simp [allSucceedB] at hfalse
  | cons a rest ih =>
    intro saved s h
    rcases ha : a s with ⟨r, s1⟩
    have hlen : s1.nextVars.length = s.nextVars.length := by
      have h2 := h a (List.mem_cons_self a rest) s
      rw [ha] at h2
      exact h2
    have hsucc : allSucceedB (a :: rest) s = (isTrue r && allSucceedB rest s1) := by
      simp [allSucceedB, ha]
    by_cases hr : isTrue r = true
    · cases rest with
      | nil =>
        constructor
        · simp [chainLoop, ha, hr, hsucc, allSucceedB]
        · intro hfalse
          rw [hsucc, hr] at hfalse
          simp [allSucceedB] at hfalse
      | cons b bs =>
        have ihb := ih saved s1 fun c hc => h c (List.mem_cons_of_mem a hc)
        have hstep : chainLoop .allK saved (a :: b :: bs) s =
            chainLoop .allK saved (b :: bs) s1 := by
          simp [chainLoop, ha, hr]
        constructor
        · rw [hstep, hsucc, hr, Bool.true_and]
          exact ihb.1
        · intro hfalse
          rw [hsucc, hr, Bool.true_and] at hfalse
          rw [hstep, ihb.2 hfalse, hlen]
    · have hrf : isTrue r = false := by
        revert hr
        cases isTrue r
        · intro _
          rfl
        · intro hc
          exact absurd rfl hc
      have hstep : chainLoop .allK saved (a :: rest) s = (r, recoverNextVars saved s1) := by
        cases rest <;> simp [chainLoop, ha, hrf]
      constructor
      · rw [hstep, hsucc, hrf, Bool.false_and]
      · intro _
        rw [hstep, recoverNextVars_nextVars, hlen]

/-- Counterexample to claim C2 as stated: when an action yields no value the
`actionAll` yields no value as well — it does not return the boolean
`false`. -/
theorem actionAll_claim_counterexample :
    (evalActionAll [errComp "action failed"] ⟨[], [none], none, [], []⟩).1 = none ∧
    (evalActionAll [errComp "action failed"] ⟨[], [none], none, [], []⟩).1 ≠
      some (Value.vBool false) := by decide

/-- Claim C2 as amended: `actionAll` snapshots the next-state registers
before the first action and evaluates the actions left-to-right; it is true
iff every action succeeds; as soon as an action returns false or yields no
value the snapshot is restored — the next-state registers afterwards equal
their values from before the `actionAll` — and the failing action's result
(false, or no value) is propagated as the result. -/
theorem actionAll_spec (actions : List Comp) (s : State)
    (h : ∀ c ∈ actions, PreservesNextLen c) :
    isTrue ((evalActionAll actions s).1) = allSucceedB actions s ∧
    (allSucceedB actions s = false →
      ((evalActionAll actions s).2).nextVars = s.nextVars) := by
  have hmain := chainLoop_all actions (snapshotNextVars s) s h
  constructor
  · exact hmain.1
  · intro hf
    have h2 := hmain.2 hf
    have h3 : ((List.range s.nextVars.length).map fun i =>
        (snapshotNextVars s).getD i none) = s.nextVars :=
      range_map_getD s.nextVars none
    exact h2.trans h3

/-- Witness for C2: a two-action chain whose second action is false; the
first action's speculative write to the next-state register is rolled
back. -/
theorem actionAll_spec_witness :
    isTrue ((evalActionAll [assignComp 0 (constComp (Value.vInt 5)),
        constComp (Value.vBool false)] ⟨[], [none], none, [], []⟩).1) =
      allSucceedB [assignComp 0 (constComp (Value.vInt 5)),
        constComp (Value.vBool false)] ⟨[], [none], none, [], []⟩ ∧
    ((evalActionAll [assignComp 0 (constComp (Value.vInt 5)),
        constComp (Value.vBool false)] ⟨[], [none], none, [], []⟩).2).nextVars = [none] :=
  ⟨(actionAll_spec _ ⟨[], [none], none, [], []⟩ (by
      intro c hc
      simp only [List.mem_cons, List.not_mem_nil, or_false] at hc
      rcases hc with rfl | rfl
      · exact preservesNextLen_assignComp_const 0 (Value.vInt 5)
      · exact preservesNextLen_constComp (Value.vBool false))).1,
   (actionAll_spec _ ⟨[], [none], none, [], []⟩ (by
      intro c hc
      simp only [List.mem_cons, List.not_mem_nil, or_false] at hc
      rcases hc with rfl | rfl
      · exact preservesNextLen_assignComp_const 0 (Value.vInt 5)
      · exact preservesNextLen_constComp (Value.vBool false))).2 (by decide)⟩

/-! ### Action disjunction (claim C3) -/

theorem getD_mem_of_lt {α : Type} (l : List α) (i : Nat) (d : α) (h : i < l.length) :
    l.getD i d ∈ l := by
  induction l generalizing i with
  | nil => simp at h
  | cons a l ih =>
    cases i with
    | zero => simp [List.getD_cons_zero]
    | succ i =>
      rw [List.getD_cons_succ]
      exact List.mem_cons_of_mem a (ih i (by simpa using h))

theorem anyLoop_eq_collectSuccs (saved : List (Option Value)) (args : List Comp) :
    ∀ (acc : List (List (Option Value))) (s : State),
      anyLoop saved args acc s =
        (acc ++ (collectSuccs saved args s).1, (collectSuccs saved args s).2) := by
  induction args with
  | nil =>
    intro acc s
    simp [anyLoop, collectSuccs]
  | cons a rest ih =>
    intro acc s
    rcases ha : a (recoverNextVars saved s) with ⟨r, s1⟩
    rcases hc : collectSuccs saved rest s1 with ⟨tl, s2⟩
    simp only [anyLoop, ha, collectSuccs, hc]
    rw [ih]
    rw [hc]
    by_cases hr : isTrue r = true
    · simp [hr, snapshotNextVars, List.append_assoc]
    · simp [hr]

theorem collectSuccs_len (saved : List (Option Value)) (args : List Comp) :
    ∀ s : State, (∀ c ∈ args, PreservesNextLen c) →
      ((collectSuccs saved args s).2).nextVars.length = s.nextVars.length ∧
      (∀ x ∈ (collectSuccs saved args s).1, x.length = s.nextVars.length) := by
  induction args with
  | nil =>
    intro s _
    simp [collectSuccs]
  | cons a rest ih =>
    intro s h
    rcases ha : a (recoverNextVars saved s) with ⟨r, s1⟩
    have hs1 : s1.nextVars.length = s.nextVars.length := by
      have h2 := h a (List.mem_cons_self a rest) (recoverNextVars saved s)
      rw [ha] at h2
      rw [recoverNextVars_len] at h2
      exact h2
    rcases hc : collectSuccs saved rest s1 with ⟨tl, s2⟩
    have ih2 := ih s1 fun c hc2 => h c (List.mem_cons_of_mem a hc2)
    rw [hc] at ih2
    constructor
    · simp only [collectSuccs, ha, hc]
      exact ih2.1.trans hs1
    · intro x hx
      simp only [collectSuccs, ha, hc] at hx
      rcases List.mem_append.mp hx with hx2 | hx2
      · by_cases hr : isTrue r = true
        · rw [if_pos hr] at hx2
          simp only [List.mem_singleton] at hx2
          rw [hx2]
          exact hs1
        · rw [if_neg hr] at hx2
          simp at hx2
      · exact (ih2.2 x hx2).trans hs1

/-- Claim C3: `actionAny` evaluates every branch, each starting from the
pre-snapshot of the next-state registers (`collectSuccs` restores the
snapshot before each branch and collects the next-state snapshots of the
branches that returned true).  If no branch succeeded the pre-snapshot is
restored and the result is `false`; otherwise the result is `true` and the
committed next-state registers are the collected snapshot selected by the
random draw (the draw taken modulo the number of candidates, a position that
ranges over every candidate). -/
theorem actionAny_spec (args : List Comp) (s : State)
    (h : ∀ c ∈ args, PreservesNextLen c)
    (succs : List (List (Option Value))) (s1 : State)
    (hc : collectSuccs (snapshotNextVars s) args s = (succs, s1)) :
    (succs = [] →
      (translateOrAction args s).1 = some (.vBool false) ∧
      ((translateOrAction args s).2).nextVars = s.nextVars) ∧
    (succs ≠ [] →
      (translateOrAction args s).1 = some (.vBool true) ∧
      s1.rand.headD 0 % succs.length < succs.length ∧
      ((translateOrAction args s).2).nextVars =
        succs.getD (s1.rand.headD 0 % succs.length) []) := by
  have hlen1 : s1.nextVars.length = s.nextVars.length := by
    have h2 := (collectSuccs_len (snapshotNextVars s) args s h).1
    rw [hc] at h2
    exact h2
  have hlen2 : ∀ x ∈ succs, x.length = s.nextVars.length := by
    have h2 := (collectSuccs_len (snapshotNextVars s) args s h).2
    rw [hc] at h2
    exact h2
  have hrun : translateOrAction args s =
      (if succs.length = 0 then
        (some (.vBool false), recoverNextVars (snapshotNextVars s) s1)
       else
        match randNat s1 with
        | (d, s2) =>
          (some (.vBool true), recoverNextVars (succs.getD (d % succs.length) []) s2)) := by
    simp only [translateOrAction, anyLoop_eq_collectSuccs, hc, List.nil_append]
  constructor
  · intro hempty
    subst hempty
    have h0 : translateOrAction args s =
        (some (.vBool false), recoverNextVars (snapshotNextVars s) s1) := by
      rw [hrun]
      simp
    rw [h0]
    refine ⟨rfl, ?_⟩
    rw [recoverNextVars_nextVars, hlen1]
    exact range_map_getD s.nextVars none
  · intro hne
    have hpos : 0 < succs.length := List.length_pos.mpr hne
    have hnz : ¬(succs.length = 0) := by omega
    have hmod : s1.rand.headD 0 % succs.length < succs.length := Nat.mod_lt _ hpos
    have hchosen : (succs.getD (s1.rand.headD 0 % succs.length) []).length =
        s.nextVars.length :=
      hlen2 _ (getD_mem_of_lt succs _ [] hmod)
    have h1 : translateOrAction args s =
        (some (.vBool true),
          recoverNextVars (succs.getD (s1.rand.headD 0 % succs.length) [])
            { s1 with rand := s1.rand.tail }) := by
      rw [hrun, if_neg hnz]
      rfl
    rw [h1]
    refine ⟨rfl, hmod, ?_⟩
    rw [recoverNextVars_nextVars]
    exact range_map_getD_of_len _ none _ (hlen1.trans hchosen.symm)

/-- Witness for C3: one succeeding branch is committed; with no succeeding
branch the result is false. -/
theorem actionAny_spec_witness :
    (translateOrAction [assignComp 0 (constComp (Value.vInt 1))]
        ⟨[], [none], none, [], [0]⟩).1 = some (Value.vBool true) ∧
    (translateOrAction [constComp (Value.vBool false)]
        ⟨[], [none], none, [], [0]⟩).1 = some (Value.vBool false) :=
  ⟨((actionAny_spec [assignComp 0 (constComp (Value.vInt 1))] ⟨[], [none], none, [], [0]⟩
      (by
        intro c hcm
        simp only [List.mem_singleton] at hcm
        subst hcm
        exact preservesNextLen_assignComp_const 0 (Value.vInt 1))
      [[some (Value.vInt 1)]] ⟨[], [some (Value.vInt 1)], none, [], [0]⟩
      (by decide)).2 (by decide)).1,
   ((actionAny_spec [constComp (Value.vBool false)] ⟨[], [none], none, [], [0]⟩
      (by
        intro c hcm
        simp only [List.mem_singleton] at hcm
        subst hcm
        exact preservesNextLen_constComp (Value.vBool false))
      [] ⟨[], [none], none, [], [0]⟩
      (by decide)).1 rfl).1⟩

/-! ### The simulator verdict (claim C1) -/

theorem runsLoop_err_iff (init next inv : Comp) (nsteps : Nat)
    (vars0 nexts0 : List (Option Value)) :
    ∀ (n : Nat) (tr : List Value) (s : State),
      ((runsLoop init next inv nsteps vars0 nexts0 n tr s).2.1 = true ↔
        ∃ k, k < n ∧ runViolates init next inv nsteps vars0 nexts0 s k) := by
  intro n
  induction n with
  | zero =>
    intro tr s
    simp [runsLoop]
  | succ n ih =>
    intro tr s
    rcases hro : runOnce init next inv nsteps s with ⟨tr1, err, s1⟩
    have hrl : runsLoop init next inv nsteps vars0 nexts0 (n + 1) tr s =
        (if err then (tr1, true, afterRun vars0 nexts0 s1)
         else runsLoop init next inv nsteps vars0 nexts0 n tr1 (afterRun vars0 nexts0 s1)) := by
      simp only [runsLoop, hro]
    have hviol0 : runViolates init next inv nsteps vars0 nexts0 s 0 ↔ err = true := by
      unfold runViolates
      rw [show runStates init next inv nsteps vars0 nexts0 0 s = s from rfl, hro]
    have hviolS : ∀ k : Nat,
        (runViolates init next inv nsteps vars0 nexts0 s (k + 1) ↔
          runViolates init next inv nsteps vars0 nexts0 (afterRun vars0 nexts0 s1) k) := by
      intro k
      unfold runViolates
      have hsteq : runStates init next inv nsteps vars0 nexts0 (k + 1) s =
          runStates init next inv nsteps vars0 nexts0 k (afterRun vars0 nexts0 s1) := by
        show runStates init next inv nsteps vars0 nexts0 k
            (afterRun vars0 nexts0 (runOnce init next inv nsteps s).2.2) = _
        rw [hro]
      rw [hsteq]
    rw [hrl]
    cases err with
    | true =>
      constructor
      · intro _
        exact ⟨0, Nat.succ_pos n, hviol0.mpr rfl⟩
      · intro _
        rfl
    | false =>
      rw [if_neg (by simp), ih]
      constructor
      · rintro ⟨k, hk, hv⟩
        exact ⟨k + 1, by omega, (hviolS k).mpr hv⟩
      · rintro ⟨k, hk, hv⟩
        cases k with
        | zero => exact absurd (hviol0.mp hv) (by simp)
        | succ k => exact ⟨k, by omega, (hviolS k).mp hv⟩

/-- Claim C1: `_test(nruns, nsteps, init, step, inv)` returns the boolean
true iff no run produced an invariant violation (an invariant evaluation that
was not true after the initial shift or after a step); a run whose `init` or
`step` returns false or yields no value is dropped — it marks no error, `init`
failure leaves an empty run trace and `step` failure simply ends the run. -/
theorem test_verdict (nruns nsteps : Nat) (init next inv : Comp) (s : State) :
    ((testOp nruns nsteps init next inv s).1 = some (.vBool true) ↔
      ¬ ∃ k, k < nruns ∧
        runViolates init next inv nsteps (snapshotVars s) (snapshotNextVars s) s k) ∧
    (∀ t : State, isTrue (init t).1 = false →
      (runOnce init next inv nsteps t).2.1 = false ∧
      (runOnce init next inv nsteps t).1 = []) ∧
    (∀ (t : State) (n : Nat) (tr : List Value), isTrue (next t).1 = false →
      (doSteps next inv (n + 1) tr t).2.1 = false ∧
      (doSteps next inv (n + 1) tr t).1 = tr) := by
  refine ⟨?_, ?_, ?_⟩
  · rcases hc : runsLoop init next inv nsteps (snapshotVars s) (snapshotNextVars s)
        nruns [] s with ⟨trace, err, s1⟩
    have hiff : err = true ↔ ∃ k, k < nruns ∧
        runViolates init next inv nsteps (snapshotVars s) (snapshotNextVars s) s k := by
      have h2 := runsLoop_err_iff init next inv nsteps (snapshotVars s) (snapshotNextVars s)
        nruns [] s
      rw [hc] at h2
      exact h2
    have htest : testOp nruns nsteps init next inv s =
        (some (.vBool !err), setLastTrace (.vList trace) s1) := by
      simp only [testOp, hc]
    rw [htest]
    cases err with
    | true =>
      constructor
      · intro hq
        exact absurd hq (by simp)
      · intro hq
        exact absurd (hiff.mp rfl) hq
    | false =>
      constructor
      · intro _ hq
        exact Bool.false_ne_true (hiff.mpr hq)
      · intro _
        rfl
  · intro t ht
    rcases hi : init t with ⟨r, t1⟩
    have ht2 : isTrue r = false := by
      rw [hi] at ht
      exact ht
    have hro : runOnce init next inv nsteps t = ([], false, t1) := by
      simp [runOnce, hi, ht2]
    rw [hro]
    exact ⟨rfl, rfl⟩
  · intro t n tr ht
    rcases hn : next t with ⟨r, t1⟩
    have ht2 : isTrue r = false := by
      rw [hn] at ht
      exact ht
    have hds : doSteps next inv (n + 1) tr t = (tr, false, t1) := by
      simp [doSteps, hn, ht2]
    rw [hds]
    exact ⟨rfl, rfl⟩

/-- Witness for C1: a failing `init` drops the run without error, and a
failing `step` ends the run without error. -/
theorem test_verdict_witness :
    (runOnce (constComp (Value.vBool false)) (constComp (Value.vBool true))
        (constComp (Value.vBool true)) 1 ⟨[], [], none, [], []⟩).2.1 = false ∧
    (doSteps (errComp "step fails") (constComp (Value.vBool true)) 1 []
        ⟨[], [], none, [], []⟩).2.1 = false :=
  ⟨((test_verdict 1 1 (constComp (Value.vBool false)) (constComp (Value.vBool true))
        (constComp (Value.vBool true)) ⟨[], [], none, [], []⟩).2.1
      ⟨[], [], none, [], []⟩ rfl).1,
   ((test_verdict 1 1 (errComp "step fails") (errComp "step fails")
        (constComp (Value.vBool true)) ⟨[], [], none, [], []⟩).2.2
      ⟨[], [], none, [], []⟩ 0 [] rfl).1⟩

/-! ### Determinism and replay (claim C6) -/

theorem recoverVars_obs (values : List (Option Value)) {s t : State} (h : obsEq s t) :
    obsEq (recoverVars values s) (recoverVars values t) := by
  obtain ⟨h1, h2, h3⟩ := h
  exact ⟨by simp [recoverVars, h1], by simp [recoverVars, h2], by simp [recoverVars, h3]⟩

theorem recoverNextVars_obs (values : List (Option Value)) {s t : State} (h : obsEq s t) :
    obsEq (recoverNextVars values s) (recoverNextVars values t) := by
  obtain ⟨h1, h2, h3⟩ := h
  exact ⟨by simp [recoverNextVars, h1], by simp [recoverNextVars, h2],
    by simp [recoverNextVars, h3]⟩

theorem shiftVars_obs {s t : State} (h : obsEq s t) :
    obsEq (shiftVars s) (shiftVars t) := by
  obtain ⟨h1, h2, h3⟩ := h
  refine ⟨?_, ?_, ?_⟩
  · simp [shiftVars, recoverVars, snapshotNextVars, h1, h2]
  · simp [shiftVars, recoverVars, snapshotNextVars, h1, h2]
  · simp [shiftVars, recoverVars, snapshotNextVars, h3]

theorem varsToRecord_obs {s t : State} (h : obsEq s t) :
    varsToRecord s = varsToRecord t := by
  simp [varsToRecord, h.1]

theorem afterRun_obs (vars0 nexts0 : List (Option Value)) {s t : State} (h : obsEq s t) :
    obsEq (afterRun vars0 nexts0 s) (afterRun vars0 nexts0 t) :=
  recoverNextVars_obs nexts0 (recoverVars_obs vars0 h)

theorem doSteps_obs (next inv : Comp) (hn : Oblivious next) (hv : Oblivious inv) :
    ∀ (n : Nat) (tr : List Value) (s t : State), obsEq s t →
      (doSteps next inv n tr s).1 = (doSteps next inv n tr t).1 ∧
      (doSteps next inv n tr s).2.1 = (doSteps next inv n tr t).2.1 ∧
      obsEq (doSteps next inv n tr s).2.2 (doSteps next inv n tr t).2.2 := by
  intro n
  induction n with
  | zero =>
    intro tr s t h
    exact ⟨rfl, rfl, h⟩
  | succ n ih =>
    intro tr s t h
    rcases hns : next s with ⟨r, s1⟩
    rcases hnt : next t with ⟨r2, t1⟩
    have hcong := hn s t h
    rw [hns, hnt] at hcong
    have hr : r = r2 := hcong.1
    subst hr
    have h1 : obsEq s1 t1 := hcong.2
    by_cases hir : isTrue r = true
    · have h2 : obsEq (shiftVars s1) (shiftVars t1) := shiftVars_obs h1
      have hrec : varsToRecord (shiftVars s1) = varsToRecord (shiftVars t1) :=
        varsToRecord_obs h2
      rcases his : inv (shiftVars s1) with ⟨ri, s3⟩
      rcases hit : inv (shiftVars t1) with ⟨ri2, t3⟩
      have hcong2 := hv _ _ h2
      rw [his, hit] at hcong2
      have hri : ri = ri2 := hcong2.1
      subst hri
      have h3 : obsEq s3 t3 := hcong2.2
      have hLs : doSteps next inv (n + 1) tr s =
          (if isTrue ri then doSteps next inv n (tr ++ [varsToRecord (shiftVars s1)]) s3
           else (tr ++ [varsToRecord (shiftVars s1)], true, s3)) := by
        simp only [doSteps, hns]
        rw [if_pos hir, his]
      have hLt : doSteps next inv (n + 1) tr t =
          (if isTrue ri then doSteps next inv n (tr ++ [varsToRecord (shiftVars t1)]) t3
           else (tr ++ [varsToRecord (shiftVars t1)], true, t3)) := by
        simp only [doSteps, hnt]
        rw [if_pos hir, hit]
      rw [hLs, hLt, hrec]
      by_cases hiri : isTrue ri = true
      · rw [if_pos hiri, if_pos hiri]
        exact ih (tr ++ [varsToRecord (shiftVars t1)]) s3 t3 h3
      · rw [if_neg hiri, if_neg hiri]
        exact ⟨rfl, rfl, h3⟩
    · have hLs : doSteps next inv (n + 1) tr s = (tr, false, s1) := by
        simp only [doSteps, hns]
        rw [if_neg hir]
      have hLt : doSteps next inv (n + 1) tr t = (tr, false, t1) := by
        simp only [doSteps, hnt]
        rw [if_neg hir]
      rw [hLs, hLt]
      exact ⟨rfl, rfl, h1⟩

theorem runOnce_obs (init next inv : Comp)
    (hi : Oblivious init) (hn : Oblivious next) (hv : Oblivious inv)
    (nsteps : Nat) {s t : State} (h : obsEq s t) :
    (runOnce init next inv nsteps s).1 = (runOnce init next inv nsteps t).1 ∧
    (runOnce init next inv nsteps s).2.1 = (runOnce init next inv nsteps t).2.1 ∧
    obsEq (runOnce init next inv nsteps s).2.2 (runOnce init next inv nsteps t).2.2 := by
  rcases his : init s with ⟨r, s1⟩
  rcases hit : init t with ⟨r2, t1⟩
  have hcong := hi s t h
  rw [his, hit] at hcong
  have hr : r = r2 := hcong.1
  subst hr
  have h1 : obsEq s1 t1 := hcong.2
  by_cases hir : isTrue r = true
  · have h2 : obsEq (shiftVars s1) (shiftVars t1) := shiftVars_obs h1
    have hrec : varsToRecord (shiftVars s1) = varsToRecord (shiftVars t1) :=
      varsToRecord_obs h2
    rcases hvs : inv (shiftVars s1) with ⟨ri, s3⟩
    rcases hvt : inv (shiftVars t1) with ⟨ri2, t3⟩
    have hcong2 := hv _ _ h2
    rw [hvs, hvt] at hcong2
    have hri : ri = ri2 := hcong2.1
    subst hri
    have h3 : obsEq s3 t3 := hcong2.2
    have hLs : runOnce init next inv nsteps s =
        (if isTrue ri then doSteps next inv nsteps [varsToRecord (shiftVars s1)] s3
         else ([varsToRecord (shiftVars s1)], true, s3)) := by
      simp only [runOnce, his]
      rw [if_pos hir, hvs]
    have hLt : runOnce init next inv nsteps t =
        (if isTrue ri then doSteps next inv nsteps [varsToRecord (shiftVars t1)] t3
         else ([varsToRecord (shiftVars t1)], true, t3)) := by
      simp only [runOnce, hit]
      rw [if_pos hir, hvt]
    rw [hLs, hLt, hrec]
    by_cases hiri : isTrue ri = true
    · rw [if_pos hiri, if_pos hiri]
      exact doSteps_obs next inv hn hv nsteps [varsToRecord (shiftVars t1)] s3 t3 h3
    · rw [if_neg hiri, if_neg hiri]
      exact ⟨rfl, rfl, h3⟩
  · have hLs : runOnce init next inv nsteps s = ([], false, s1) := by
      simp only [runOnce, his]
      rw [if_neg hir]
    have hLt : runOnce init next inv nsteps t = ([], false, t1) := by
      simp only [runOnce, hit]
      rw [if_neg hir]
    rw [hLs, hLt]
    exact ⟨rfl, rfl, h1⟩

theorem runsLoop_obs (init next inv : Comp)
    (hi : Oblivious init) (hn : Oblivious next) (hv : Oblivious inv)
    (nsteps : Nat) (vars0 nexts0 : List (Option Value)) :
    ∀ (n : Nat) (tr : List Value) (s t : State), obsEq s t →
      (runsLoop init next inv nsteps vars0 nexts0 n tr s).1 =
        (runsLoop init next inv nsteps vars0 nexts0 n tr t).1 ∧
      (runsLoop init next inv nsteps vars0 nexts0 n tr s).2.1 =
        (runsLoop init next inv nsteps vars0 nexts0 n tr t).2.1 ∧
      obsEq (runsLoop init next inv nsteps vars0 nexts0 n tr s).2.2
        (runsLoop init next inv nsteps vars0 nexts0 n tr t).2.2 := by
  intro n
  induction n with
  | zero =>
    intro tr s t h
    exact ⟨rfl, rfl, h⟩
  | succ n ih =>
    intro tr s t h
    rcases hrs : runOnce init next inv nsteps s with ⟨tr1, e1, s1⟩
    rcases hrt : runOnce init next inv nsteps t with ⟨tr2, e2, t1⟩
    have hcong := runOnce_obs init next inv hi hn hv nsteps h
    rw [hrs, hrt] at hcong
    have htr : tr1 = tr2 := hcong.1
    have he : e1 = e2 := hcong.2.1
    subst htr
    subst he
    have h1 : obsEq s1 t1 := hcong.2.2
    have h2 : obsEq (afterRun vars0 nexts0 s1) (afterRun vars0 nexts0 t1) :=
      afterRun_obs vars0 nexts0 h1
    have hLs : runsLoop init next inv nsteps vars0 nexts0 (n + 1) tr s =
        (if e1 then (tr1, true, afterRun vars0 nexts0 s1)
         else runsLoop init next inv nsteps vars0 nexts0 n tr1 (afterRun vars0 nexts0 s1)) := by
      simp only [runsLoop, hrs]
    have hLt : runsLoop init next inv nsteps vars0 nexts0 (n + 1) tr t =
        (if e1 then (tr1, true, afterRun vars0 nexts0 t1)
         else runsLoop init next inv nsteps vars0 nexts0 n tr1 (afterRun vars0 nexts0 t1)) := by
      simp only [runsLoop, hrt]
    rw [hLs, hLt]
    cases e1 with
    | true => exact ⟨rfl, rfl, h2⟩
    | false =>
      simp only [Bool.false_eq_true, if_false]
      exact ih tr1 (afterRun vars0 nexts0 s1) (afterRun vars0 nexts0 t1) h2

theorem oblivious_constComp (v : Value) : Oblivious (constComp v) :=
  fun _ _ h => ⟨rfl, h⟩

/-- Counterexample to claim C6 as stated: the source draws its randomness
from the global `Math.random()` — `_test` has no seed parameter — so two
invocations of `_test` with identical arguments consume successive draws of
the ambient stream and need not agree.  Concretely, with one variable,
`init` assigning 0, `step` an `actionAny` between assigning 1 and assigning
2, and the invariant "the variable is at most 1", the first invocation draws
0 (commits 1, verdict true) and the second invocation continues the stream,
draws 1 (commits 2, verdict false). -/
theorem replay_claim_counterexample :
    (testOp 1 1 (assignComp 0 (constComp (Value.vInt 0)))
        (translateOrAction [assignComp 0 (constComp (Value.vInt 1)),
          assignComp 0 (constComp (Value.vInt 2))])
        (applyFunC evalIlte [readVar 0, constComp (Value.vInt 1)])
        ⟨[none], [none], none, [], [0, 1]⟩).1 = some (Value.vBool true) ∧
    (testOp 1 1 (assignComp 0 (constComp (Value.vInt 0)))
        (translateOrAction [assignComp 0 (constComp (Value.vInt 1)),
          assignComp 0 (constComp (Value.vInt 2))])
        (applyFunC evalIlte [readVar 0, constComp (Value.vInt 1)])
        ((testOp 1 1 (assignComp 0 (constComp (Value.vInt 0)))
          (translateOrAction [assignComp 0 (constComp (Value.vInt 1)),
            assignComp 0 (constComp (Value.vInt 2))])
          (applyFunC evalIlte [readVar 0, constComp (Value.vInt 1)])
          ⟨[none], [none], none, [], [0, 1]⟩).2)).1 = some (Value.vBool false) := by
  decide

/-- Claim C6 as amended: `_test` is deterministic up to the stream of random
draws: two invocations started from states that agree on the registers and on
the random-draw stream (the error log and previously stored trace may differ)
produce the identical verdict and the identical trace, for any callables that
are themselves oblivious to the error log — so recording the draws of a run
suffices to replay it.  The source, however, draws from the seedless global
`Math.random()`, so repeated invocations continue the ambient stream rather
than replay it. -/
theorem sim_test_replay (nruns nsteps : Nat) (init next inv : Comp)
    (hi : Oblivious init) (hn : Oblivious next) (hv : Oblivious inv)
    (s t : State) (h : obsEq s t) :
    (testOp nruns nsteps init next inv s).1 = (testOp nruns nsteps init next inv t).1 ∧
    ((testOp nruns nsteps init next inv s).2).lastTrace =
      ((testOp nruns nsteps init next inv t).2).lastTrace := by
  rcases hcs : runsLoop init next inv nsteps (snapshotVars s) (snapshotNextVars s)
      nruns [] s with ⟨tr1, e1, s1⟩
  rcases hct : runsLoop init next inv nsteps (snapshotVars t) (snapshotNextVars t)
      nruns [] t with ⟨tr2, e2, t1⟩
  have hct2 : runsLoop init next inv nsteps (snapshotVars s) (snapshotNextVars s)
      nruns [] t = (tr2, e2, t1) := by
    have hvv : snapshotVars s = snapshotVars t := h.1
    have hnn : snapshotNextVars s = snapshotNextVars t := h.2.1
    rw [hvv, hnn]
    exact hct
  have hcong := runsLoop_obs init next inv hi hn hv nsteps
    (snapshotVars s) (snapshotNextVars s) nruns [] s t h
  rw [hcs, hct2] at hcong
  have htr : tr1 = tr2 := hcong.1
  have he : e1 = e2 := hcong.2.1
  have hTs : testOp nruns nsteps init next inv s =
      (some (.vBool !e1), setLastTrace (.vList tr1) s1) := by
    simp only [testOp, hcs]
  have hTt : testOp nruns nsteps init next inv t =
      (some (.vBool !e2), setLastTrace (.vList tr2) t1) := by
    simp only [testOp, hct]
  rw [hTs, hTt, htr, he]
  exact ⟨rfl, rfl⟩

/-- Witness for C6 at concrete oblivious callables and two states differing
only in their error logs. -/
theorem sim_test_replay_witness :
    (testOp 1 1 (constComp (Value.vBool true)) (constComp (Value.vBool false))
        (constComp (Value.vBool true)) ⟨[], [], none, [], []⟩).1 =
      (testOp 1 1 (constComp (Value.vBool true)) (constComp (Value.vBool false))
        (constComp (Value.vBool true)) ⟨[], [], none, ["stale error"], []⟩).1 :=
  (sim_test_replay 1 1 (constComp (Value.vBool true)) (constComp (Value.vBool false))
    (constComp (Value.vBool true)) (oblivious_constComp _) (oblivious_constComp _)
    (oblivious_constComp _) ⟨[], [], none, [], []⟩ ⟨[], [], none, ["stale error"], []⟩
    ⟨rfl, rfl, rfl⟩).1

end Quint

namespace Tnt

/-! ### Name resolution characterization (claim C4) -/

theorem filterScope_any (l : List ValueDefinition) (scopes : List Nat) (n : String) :
    ((filterScope l scopes).any fun d => d.identifier = n) =
      (l.any fun d => d.identifier = n &&
        match d.scope with
        | none => true
        | some sc => scopes.contains sc) := by
  induction l with
  | nil => rfl
  | cons d l ih =>
    rcases d with ⟨id, sc⟩
    cases sc with
    | none => simp [filterScope, List.filter_cons, List.any_cons, ih, Bool.and_comm]
    | some scv =>
      by_cases hm : scv ∈ scopes
      · simp [filterScope, List.filter_cons, List.any_cons, hm, ih, Bool.and_comm]
      · simp [filterScope, List.filter_cons, List.any_cons, hm, ih, Bool.and_comm]

theorem resolvesValue_eq (t : DefinitionTable) (sf : Nat → List Nat) (i : Nat) (n : String) :
    resolvesValue t sf i n = resolvableValue t sf (i, n) :=
  filterScope_any t.valueDefinitions (sf i) n

mutual

theorem errorsOfExpr_eq (t : DefinitionTable) (sf : Nat → List Nat) (dn mn : String) :
    ∀ e : TntEx,
      errorsOfExpr t sf dn mn e =
        ((valueRefsOfExpr e).filter fun r => !resolvableValue t sf r).map
          fun r => ⟨.value, r.2, dn, mn, r.1⟩
  | .lit _ _ => rfl
  | .nm i n => by
      simp only [errorsOfExpr, valueRefsOfExpr, resolvesValue_eq, List.filter_cons,
        List.filter_nil]
      by_cases hr : resolvableValue t sf (i, n) = true
      · simp [hr]
      · have hr2 : resolvableValue t sf (i, n) = false := by
          revert hr
          cases resolvableValue t sf (i, n)
          · intro _
            rfl
          · intro hc
            exact absurd rfl hc
        simp [hr2]
  | .app i op args => by
      simp only [errorsOfExpr, valueRefsOfExpr, resolvesValue_eq, List.filter_cons]
      rw [errorsOfExprs_eq t sf dn mn args]
      by_cases hr : resolvableValue t sf (i, op) = true
      · simp [hr]
      · have hr2 : resolvableValue t sf (i, op) = false := by
          revert hr
          cases resolvableValue t sf (i, op)
          · intro _
            rfl
          · intro hc
            exact absurd rfl hc
        simp [hr2]
  | .lam _ _ body => by
      simp only [errorsOfExpr, valueRefsOfExpr]
      exact errorsOfExpr_eq t sf dn mn body

theorem errorsOfExprs_eq (t : DefinitionTable) (sf : Nat → List Nat) (dn mn : String) :
    ∀ es : List TntEx,
      errorsOfExprs t sf dn mn es =
        ((valueRefsOfExprs es).filter fun r => !resolvableValue t sf r).map
          fun r => ⟨.value, r.2, dn, mn, r.1⟩
  | [] => rfl
  | e :: es => by
      simp only [errorsOfExprs, valueRefsOfExprs, List.filter_append, List.map_append]
      rw [errorsOfExpr_eq t sf dn mn e, errorsOfExprs_eq t sf dn mn es]

end

theorem errorsOfDef_eq (t : DefinitionTable) (sf : Nat → List Nat) (mn : String) :
    ∀ d : TntDef,
      errorsOfDef t sf mn d =
        (((valueRefsOfDef d).filter fun r => !resolvableValue t sf r).map
          fun r => ⟨.value, r.2, d.defName, mn, r.1⟩) ++
        (((typeRefsOfDef d).filter fun r => !resolvableType t r).map
          fun r => ⟨.type, r.2, d.defName, mn, r.1⟩)
  | .opdef _ n e => by
      simp only [errorsOfDef, valueRefsOfDef, typeRefsOfDef, TntDef.defName,
        List.filter_nil, List.map_nil, List.append_nil]
      exact errorsOfExpr_eq t sf n mn e
  | .vardef _ n ty => by
      cases ty with
      | none => rfl
      | some tt =>
        cases tt with
        | constT i tn =>
          have hb : resolvesType t tn = resolvableType t (i, tn) := rfl
          simp only [errorsOfDef, valueRefsOfDef, typeRefsOfDef, TntDef.defName,
            List.filter_nil, List.map_nil, List.nil_append, List.filter_cons, hb]
          by_cases hr : resolvableType t (i, tn) = true
          · simp [hr]
          · have hr2 : resolvableType t (i, tn) = false := by
              revert hr
              cases resolvableType t (i, tn)
              · intro _
                rfl
              · intro hc
                exact absurd rfl hc
            simp [hr2]
        | varT i tn =>
          have hb : resolvesType t tn = resolvableType t (i, tn) := rfl
          simp only [errorsOfDef, valueRefsOfDef, typeRefsOfDef, TntDef.defName,
            List.filter_nil, List.map_nil, List.nil_append, List.filter_cons, hb]
          by_cases hr : resolvableType t (i, tn) = true
          · simp [hr]
          · have hr2 : resolvableType t (i, tn) = false := by
              revert hr
              cases resolvableType t (i, tn)
              · intro _
                rfl
              · intro hc
                exact absurd rfl hc
            simp [hr2]

theorem errorsOfModule_counts (t : DefinitionTable) (sf : Nat → List Nat) (mn : String)
    (ds : List TntDef) :
    (ds.flatMap (errorsOfDef t sf mn)).length =
      ((ds.flatMap valueRefsOfDef).filter fun r => !resolvableValue t sf r).length +
      ((ds.flatMap typeRefsOfDef).filter fun r => !resolvableType t r).length := by
  induction ds with
  | nil => rfl
  | cons d ds ih =>
    rw [List.flatMap_cons, List.flatMap_cons, List.flatMap_cons, List.length_append,
      errorsOfDef_eq t sf mn d, List.length_append, List.length_map, List.length_map,
      List.filter_append, List.filter_append, List.length_append, List.length_append, ih]
    omega

theorem all_iff_filter_not_len {α : Type} (l : List α) (p : α → Bool) :
    l.all p = true ↔ (l.filter fun r => !p r).length = 0 := by
  induction l with
  | nil => simp
  | cons a l ih =>
    cases hp : p a
    · simp [List.all_cons, hp, List.filter_cons]
    · simp [List.all_cons, hp, List.filter_cons, ih]

/-- Counterexample to claim C4 as stated: a module with an unresolved
type-name reference and no name expressions or operator applications at all
— every value reference (vacuously) resolves, yet `resolveNames` is not ok:
it records a type-kind error, so "ok iff every name expression and operator
application resolves" fails in the only-if direction. -/
theorem resolver_claim_counterexample :
    valueRefs ⟨"M", [.vardef 1 "x" (some (.varT 2 "UnknownType"))]⟩ = [] ∧
    resolveNames ⟨"M", [.vardef 1 "x" (some (.varT 2 "UnknownType"))]⟩ ⟨[], []⟩
      (fun _ => []) ≠ .ok ∧
    errorsOfModule ⟨"M", [.vardef 1 "x" (some (.varT 2 "UnknownType"))]⟩ ⟨[], []⟩
      (fun _ => []) = [⟨.type, "UnknownType", "x", "M", 2⟩] := by
  refine ⟨rfl, ?_, rfl⟩
  intro hc
  exact absurd hc (by decide)

/-- Claim C4 as amended: `resolveNames` is ok iff every name expression and
operator application resolves to an in-scope value definition (in scope:
unscoped, or scoped to one of `scopesFor` of the reference) and additionally
every type-name reference resolves in the type-definition table; the errors
are aggregated over the whole walk — the error list carries exactly one
error per unresolved reference (value and type), never stopping at the
first. -/
theorem resolver_spec (m : TntModule) (t : DefinitionTable) (sf : Nat → List Nat) :
    (resolveNames m t sf = .ok ↔
      ((valueRefs m).all fun r => resolvableValue t sf r) = true ∧
      ((typeRefs m).all fun r => resolvableType t r) = true) ∧
    (errorsOfModule m t sf).length =
      ((valueRefs m).filter fun r => !resolvableValue t sf r).length +
      ((typeRefs m).filter fun r => !resolvableType t r).length := by
  have hcount : (errorsOfModule m t sf).length =
      ((valueRefs m).filter fun r => !resolvableValue t sf r).length +
      ((typeRefs m).filter fun r => !resolvableType t r).length :=
    errorsOfModule_counts t sf m.name m.defs
  refine ⟨?_, hcount⟩
  have hall : (((valueRefs m).all fun r => resolvableValue t sf r) = true ∧
      ((typeRefs m).all fun r => resolvableType t r) = true) ↔
      (errorsOfModule m t sf).length = 0 := by
    rw [all_iff_filter_not_len, all_iff_filter_not_len, hcount]
    omega
  unfold resolveNames
  by_cases he : (errorsOfModule m t sf).length > 0
  · rw [if_pos he]
    constructor
    · intro hq
      exact absurd hq (by simp)
    · intro hq
      exact absurd (hall.mp hq) (by omega)
  · rw [if_neg he]
    constructor
    · intro _
      exact hall.mpr (by omega)
    · intro _
      rfl

end Tnt
